import Mathlib

/-!
Shallow embedding of the EV depot scheduling engine (src/engine.py) together
with the savings computation of src/run_demo.py / src/app.py.

Modelling conventions:
* timestamps are rationals counting minutes since an epoch (the pandas
  Timestamps of the source have at-most-minute resolution on the time grid);
* all float quantities of the source (kW, kWh, rates, the 1e-6 tolerance)
  become exact rationals;
* `session_id` / `vehicle_id` are natural numbers (the source only ever
  compares them for equality);
* the time index is a list of bin-start timestamps;
* load curves and charger-count curves are functions from timestamps, updated
  pointwise exactly as the pandas Series `.loc[t] +=` updates of the source;
* the while-loops of the source are modelled with an explicit fuel argument;
  the callers pass the fuel that the loop structure itself bounds (the greedy
  inner loop removes one candidate bin per iteration, the baseline walk takes
  one bin-width step per iteration), and fuel-stability theorems show the
  loops have in fact terminated within that fuel.
-/

/-- The numeric tolerance of the source: `1e-6` (engine.py, lines 37 and 66). -/
def tol : ℚ := 1 / 1000000

/-- A charging session, mirroring one row of the sessions DataFrame. -/
structure Session where
  session_id : ℕ
  vehicle_id : ℕ
  earliest_start : ℚ
  latest_end : ℚ
  energy_kwh : ℚ
  max_kw : ℚ
deriving DecidableEq, Repr

/-- A time-of-use block, mirroring one dict of `Tariff.tou_blocks`. -/
structure TouBlock where
  start_hour : ℚ
  end_hour : ℚ
  rate_per_kwh : ℚ
deriving DecidableEq, Repr

/-- The tariff record (engine.py, lines 7-11). -/
structure Tariff where
  flat_energy_rate_per_kwh : ℚ
  demand_charge_per_kw : ℚ
  tou_blocks : List TouBlock
deriving DecidableEq, Repr

/-- `ts.hour + ts.minute/60.0` for a timestamp `ts` measured in minutes:
sub-minute parts are dropped exactly as the pandas `.hour`/`.minute` fields
drop them (engine.py, line 25). -/
def hourOfDay (ts : ℚ) : ℚ :=
  let m := ts - 1440 * (⌊ts / 1440⌋ : ℚ)
  (⌊m / 60⌋ : ℚ) + ((⌊m⌋ - 60 * ⌊m / 60⌋ : ℤ) : ℚ) / 60

/-- The `for b in tariff.tou_blocks` loop of engine.py lines 26-28: the rate of
the first block matching hour-of-day `h`, if any. -/
def firstBlockRate (h : ℚ) : List TouBlock → Option ℚ
  | [] => none
  | b :: bs =>
    if b.start_hour ≤ h ∧ h < b.end_hour then some b.rate_per_kwh
    else firstBlockRate h bs

/-- `tou_rate_for_ts` (engine.py, lines 22-29). -/
def tou_rate_for_ts (ts : ℚ) (tariff : Tariff) : ℚ :=
  if tariff.tou_blocks = [] then tariff.flat_energy_rate_per_kwh
  else
    match firstBlockRate (hourOfDay ts) tariff.tou_blocks with
    | some r => r
    | none => tariff.flat_energy_rate_per_kwh

/-- The inner while-loop of `baseline_load_curve` (engine.py, lines 37-42),
with explicit fuel. State: current time `t`, remaining energy `needed`, and
the accumulating load curve. Returns the updated curve and the remaining
(undelivered) energy. -/
def baselineWalk (idx : List ℚ) (binm binh endT kw : ℚ) :
    ℕ → ℚ → ℚ → (ℚ → ℚ) → (ℚ → ℚ) × ℚ
  | 0, _, needed, load => (load, needed)
  | fuel + 1, t, needed, load =>
    if tol < needed ∧ t < endT then
      if t ∈ idx then
        let deliver := min needed (kw * binh)
        baselineWalk idx binm binh endT kw fuel (t + binm) (needed - deliver)
          (fun u => if u = t then load u + deliver / binh else load u)
      else
        baselineWalk idx binm binh endT kw fuel (t + binm) needed load
    else (load, needed)

/-- Number of `t := t + binm` steps needed to move `t` past `endT`; this
bounds the iterations of the baseline walk, whose guard requires `t < endT`. -/
def walkSteps (binm t endT : ℚ) : ℕ := (⌈(endT - t) / binm⌉).toNat

/-- `baseline_load_curve` (engine.py, lines 31-43): fold the per-session walk
over all sessions, starting from the all-zero curve. -/
def baseline_load_curve (sessions : List Session) (idx : List ℚ) (binm : ℚ) :
    ℚ → ℚ :=
  sessions.foldl
    (fun load s =>
      (baselineWalk idx binm (binm / 60) s.latest_end s.max_kw
        (walkSteps binm s.earliest_start s.latest_end)
        s.earliest_start s.energy_kwh load).1)
    (fun _ => 0)

/-- `window_bins` (engine.py, line 57): the exact minutes-ratio
`(latest_end - earliest_start)/bin_minutes`, clipped below at 1.
Note: the source applies no ceiling. -/
def window_bins (binm : ℚ) (s : Session) : ℚ :=
  max ((s.latest_end - s.earliest_start) / binm) 1

/-- Modelled from the spec: the spec instead states
`window_bins = max(1, ceil((latest_end - earliest_start)/bin_width))`,
with a ceiling. Used only to compare against the source formula. -/
def specWindowBins (binm : ℚ) (s : Session) : ℚ :=
  max 1 ((⌈(s.latest_end - s.earliest_start) / binm⌉ : ℤ) : ℚ)

/-- `tightness` (engine.py, line 58); `bin_hours = bin_minutes/60`. -/
def tightness (binm : ℚ) (s : Session) : ℚ :=
  s.energy_kwh / (s.max_kw * window_bins binm s * (binm / 60))

/-- The sort relation of `ss.sort_values(["tightness","earliest_start"],
ascending=[False,True])` (engine.py, line 59): tightness descending, ties
broken by earliest_start ascending. -/
def priorityRel (binm : ℚ) (a b : Session) : Prop :=
  tightness binm b < tightness binm a ∨
    (tightness binm a = tightness binm b ∧ a.earliest_start ≤ b.earliest_start)

instance (binm : ℚ) : DecidableRel (priorityRel binm) := fun a b => by
  unfold priorityRel
  infer_instance

/-- The session order in which the greedy loop runs (engine.py, line 59);
`insertionSort` is a stable sort, like the pandas multi-key sort. -/
def sortedSessions (binm : ℚ) (sessions : List Session) : List Session :=
  sessions.insertionSort (priorityRel binm)

/-- One schedule row (engine.py, lines 82-88). Inside the allocation state the
`kw`/`kwh` fields carry the exact (unrounded) values `deliver/bin_hours` and
`deliver`; the returned schedule applies `roundEntry` to every row, which is
observably the same as the source rounding each row at append time. -/
structure ScheduleEntry where
  session_id : ℕ
  vehicle_id : ℕ
  bin_start : ℚ
  kw : ℚ
  kwh : ℚ
deriving DecidableEq, Repr

/-- Round-half-to-even at the integers (Python's `round` on a real value). -/
def roundHalfEven (q : ℚ) : ℤ :=
  if q - ⌊q⌋ < 1 / 2 then ⌊q⌋
  else if 1 / 2 < q - ⌊q⌋ then ⌊q⌋ + 1
  else if ⌊q⌋ % 2 = 0 then ⌊q⌋ else ⌊q⌋ + 1

/-- `round(x, 3)` of the source (engine.py, lines 86-87). -/
def round3 (q : ℚ) : ℚ := ((roundHalfEven (q * 1000) : ℤ) : ℚ) / 1000

/-- Rounding of the two numeric fields of an emitted schedule row. -/
def roundEntry (e : ScheduleEntry) : ScheduleEntry :=
  { e with kw := round3 e.kw, kwh := round3 e.kwh }

/-- Mutable state of the greedy scheduler: the load curve, the charger-count
curve and the accumulated schedule rows (engine.py, lines 53-55). -/
structure GState where
  load : ℚ → ℚ
  chargers : ℚ → ℕ
  rows : List ScheduleEntry

/-- The feasibility filter of engine.py lines 67-73: bins with a free charger
slot and room under the depot power cap for this session's `max_kw`. -/
def feasibleFor (load : ℚ → ℚ) (chargers : ℚ → ℕ) (maxCC : ℕ) (cap kw : ℚ)
    (bins : List ℚ) : List ℚ :=
  bins.filter fun t => decide (chargers t < maxCC ∧ load t + kw ≤ cap)

/-- Strict lexicographic improvement on the key triple
`(load t + kw, load t, t)` used to pick the next bin; the source sorts the
tuples `(load+kw, load, t)` ascending with a stable sort and takes the head
(engine.py, lines 73-77), which selects exactly the triple-lex minimum. -/
def betterKey (load : ℚ → ℚ) (kw a b : ℚ) : Prop :=
  load a + kw < load b + kw ∨
    (load a + kw = load b + kw ∧
      (load a < load b ∨ (load a = load b ∧ a < b)))

instance (load : ℚ → ℚ) (kw : ℚ) : DecidableRel (betterKey load kw) :=
  fun a b => by
    unfold betterKey
    infer_instance

/-- First minimum of the key triple over a candidate list. -/
def pickMin (load : ℚ → ℚ) (kw : ℚ) : List ℚ → Option ℚ
  | [] => none
  | t :: ts =>
    some (ts.foldl (fun best u => if betterKey load kw u best then u else best) t)

/-- The inner while-loop of `greedy_optimize_schedule` (engine.py, lines
66-90), with explicit fuel: while energy remains above tolerance, pick the
best feasible bin, deliver `min(needed, max_kw*bin_hours)`, update the curves,
append a row, remove the bin from the candidate set. -/
def allocSession (binh cap : ℚ) (maxCC : ℕ) (s : Session) :
    ℕ → List ℚ → ℚ → GState → GState
  | 0, _, _, st => st
  | fuel + 1, bins, needed, st =>
    if tol < needed then
      match pickMin st.load s.max_kw
          (feasibleFor st.load st.chargers maxCC cap s.max_kw bins) with
      | none => st
      | some t =>
        let deliver := min needed (s.max_kw * binh)
        let used_kw := deliver / binh
        allocSession binh cap maxCC s fuel (bins.erase t) (needed - deliver)
          { load := fun u => if u = t then st.load u + used_kw else st.load u
            chargers := fun u => if u = t then st.chargers u + 1 else st.chargers u
            rows := st.rows ++ [⟨s.session_id, s.vehicle_id, t, used_kw, deliver⟩] }
    else st

/-- The candidate bins of one session (engine.py, line 62). -/
def sessionBins (idx : List ℚ) (s : Session) : List ℚ :=
  idx.filter fun t => decide (s.earliest_start ≤ t ∧ t < s.latest_end)

/-- The body of the `for _, s in ss.iterrows()` loop (engine.py, lines 61-90).
The fuel `bins.length` is exact: every iteration erases the chosen bin. -/
def processSession (idx : List ℚ) (binh cap : ℚ) (maxCC : ℕ)
    (st : GState) (s : Session) : GState :=
  let bins := sessionBins idx s
  if bins = [] then st
  else allocSession binh cap maxCC s bins.length bins s.energy_kwh st

/-- The full greedy run (engine.py, lines 45-90), returning the final state. -/
def greedyRun (sessions : List Session) (idx : List ℚ) (binm cap : ℚ)
    (maxCC : ℕ) : GState :=
  (sortedSessions binm sessions).foldl
    (processSession idx (binm / 60) cap maxCC)
    ⟨fun _ => 0, fun _ => 0, []⟩

/-- `greedy_optimize_schedule` (engine.py, lines 45-95): the emitted schedule
(rows with `kw`/`kwh` rounded to 3 decimals) and the (unrounded) load curve. -/
def greedy_optimize_schedule (sessions : List Session) (idx : List ℚ)
    (binm cap : ℚ) (maxCC : ℕ) : List ScheduleEntry × (ℚ → ℚ) :=
  let st := greedyRun sessions idx binm cap maxCC
  (st.rows.map roundEntry, st.load)

/-- The cost-summary record returned by `estimate_costs` (engine.py 97-112). -/
structure CostBreakdown where
  total_kwh : ℚ
  peak_kw : ℚ
  energy_cost : ℚ
  demand_charge_cost : ℚ
  total_cost : ℚ
deriving DecidableEq, Repr

/-- The savings record of run_demo.py lines 41-45 and app.py lines 96-100. -/
structure Savings where
  peak_kw_reduction_pct : ℚ
  total_cost_savings : ℚ
  total_cost_savings_pct : ℚ
deriving DecidableEq, Repr

/-- The savings computation (run_demo.py, lines 41-45; app.py, lines 96-100):
the Python conditional expression `... if base_costs[k] else 0` guards each
percentage on the baseline quantity being nonzero. -/
def savings_for (base costs : CostBreakdown) : Savings :=
  { peak_kw_reduction_pct :=
      if base.peak_kw ≠ 0 then (1 - costs.peak_kw / base.peak_kw) * 100 else 0
    total_cost_savings := base.total_cost - costs.total_cost
    total_cost_savings_pct :=
      if base.total_cost ≠ 0 then (1 - costs.total_cost / base.total_cost) * 100
      else 0 }

/-! ## Generic helper lemmas -/

lemma foldl_choice_mem {α : Type} (p : α → α → Prop) [DecidableRel p] :
    ∀ (l : List α) (a : α),
      l.foldl (fun best u => if p u best then u else best) a ∈ a :: l := by
  intro l
  induction l with
  | nil => intro a; simp
  | cons u l ih =>
    intro a
    simp only [List.foldl_cons]
    rcases List.mem_cons.mp (ih (if p u a then u else a)) with h | h
    · rw [h]
      by_cases hp : p u a
      · rw [if_pos hp]
        exact List.mem_cons_of_mem a (List.mem_cons_self u l)
      · rw [if_neg hp]
        exact List.mem_cons_self a (u :: l)
    · exact List.mem_cons_of_mem a (List.mem_cons_of_mem u h)

lemma pickMin_mem {load : ℚ → ℚ} {kw : ℚ} {l : List ℚ} {t : ℚ}
    (h : pickMin load kw l = some t) : t ∈ l := by
  cases l with
  | nil => simp [pickMin] at h
  | cons a ts =>
    simp only [pickMin, Option.some.injEq] at h
    exact h ▸ foldl_choice_mem (betterKey load kw) ts a

lemma mem_feasibleFor {load : ℚ → ℚ} {chargers : ℚ → ℕ} {maxCC : ℕ}
    {cap kw : ℚ} {bins : List ℚ} {t : ℚ}
    (h : t ∈ feasibleFor load chargers maxCC cap kw bins) :
    t ∈ bins ∧ chargers t < maxCC ∧ load t + kw ≤ cap := by
  simp only [feasibleFor, List.mem_filter, decide_eq_true_eq] at h
  exact ⟨h.1, h.2.1, h.2.2⟩

/-! ## C6: first-match time-of-use rate resolution -/

lemma firstBlockRate_eq_none {h : ℚ} {bs : List TouBlock}
    (hnone : ∀ b ∈ bs, ¬(b.start_hour ≤ h ∧ h < b.end_hour)) :
    firstBlockRate h bs = none := by
  induction bs with
  | nil => rfl
  | cons b bs ih =>
    simp only [firstBlockRate]
    rw [if_neg (hnone b (List.mem_cons_self b bs))]
    exact ih fun b2 hb2 => hnone b2 (List.mem_cons_of_mem b hb2)

lemma firstBlockRate_first_match {h : ℚ} {l1 : List TouBlock} {b : TouBlock}
    {l2 : List TouBlock} (hb : b.start_hour ≤ h ∧ h < b.end_hour)
    (hl1 : ∀ b2 ∈ l1, ¬(b2.start_hour ≤ h ∧ h < b2.end_hour)) :
    firstBlockRate h (l1 ++ b :: l2) = some b.rate_per_kwh := by
  induction l1 with
  | nil => simp [firstBlockRate, if_pos hb]
  | cons c l1 ih =>
    simp only [List.cons_append, firstBlockRate]
    rw [if_neg (hl1 c (List.mem_cons_self c l1))]
    exact ih fun b2 hb2 => hl1 b2 (List.mem_cons_of_mem c hb2)

/-- C6: the tariff rate resolver returns the flat rate when no time-of-use
blocks are configured; otherwise it returns the rate of the first block in
configuration order whose `start_hour ≤ hour_of_day < end_hour` (first match
wins even when blocks overlap), and the flat rate when no block matches. -/
theorem C6_tou_rate_first_match (ts : ℚ) (tariff : Tariff) :
    (tariff.tou_blocks = [] →
      tou_rate_for_ts ts tariff = tariff.flat_energy_rate_per_kwh) ∧
    ((∀ b ∈ tariff.tou_blocks,
        ¬(b.start_hour ≤ hourOfDay ts ∧ hourOfDay ts < b.end_hour)) →
      tou_rate_for_ts ts tariff = tariff.flat_energy_rate_per_kwh) ∧
    (∀ l1 b l2, tariff.tou_blocks = l1 ++ b :: l2 →
      (b.start_hour ≤ hourOfDay ts ∧ hourOfDay ts < b.end_hour) →
      (∀ b2 ∈ l1, ¬(b2.start_hour ≤ hourOfDay ts ∧ hourOfDay ts < b2.end_hour)) →
      tou_rate_for_ts ts tariff = b.rate_per_kwh) := by
  refine ⟨fun hnil => by simp [tou_rate_for_ts, hnil], fun hnone => ?_, ?_⟩
  · unfold tou_rate_for_ts
    split
    · rfl
    · rw [firstBlockRate_eq_none hnone]
  · intro l1 b l2 hdecomp hb hl1
    have hne : tariff.tou_blocks ≠ [] := by
      rw [hdecomp]; exact List.append_ne_nil_of_right_ne_nil l1 (List.cons_ne_nil b l2)
    unfold tou_rate_for_ts
    rw [if_neg hne, hdecomp, firstBlockRate_first_match hb hl1]

lemma hourOfDay_810 : hourOfDay 810 = 27 / 2 := by
  have h1 : ⌊(810 : ℚ) / 1440⌋ = 0 := by
    rw [Int.floor_eq_iff]; norm_num
  have key : (810 : ℚ) - 1440 * ((0 : ℤ) : ℚ) = 810 := by norm_num
  have h2 : ⌊(810 : ℚ) / 60⌋ = 13 := by
    rw [Int.floor_eq_iff]; norm_num
  have h3 : ⌊(810 : ℚ)⌋ = 810 := by
    rw [Int.floor_eq_iff]; norm_num
  simp only [hourOfDay, h1, key, h2, h3]
  norm_num

/-- Witness for C6 at a concrete timestamp and tariff: 810 minutes is 13:30,
i.e. fractional hour 13.5, which falls in the block [8, 20) with rate 7. -/
theorem C6_tou_rate_first_match_witness :
    tou_rate_for_ts 810 ⟨5, 0, [⟨8, 20, 7⟩]⟩ = 7 :=
  (C6_tou_rate_first_match 810 ⟨5, 0, [⟨8, 20, 7⟩]⟩).2.2 [] ⟨8, 20, 7⟩ [] rfl
    (by rw [hourOfDay_810]; constructor <;> norm_num) (by simp)

/-! ## C7: division-by-zero guards in the savings computation -/

/-- C7: whenever the baseline peak_kw is 0 the peak reduction percentage is 0,
and whenever the baseline total_cost is 0 the cost savings percentage is 0;
otherwise the percentages are the plain ratio formulas. -/
theorem C7_savings_zero_guards (base costs : CostBreakdown) :
    (base.peak_kw = 0 → (savings_for base costs).peak_kw_reduction_pct = 0) ∧
    (base.total_cost = 0 → (savings_for base costs).total_cost_savings_pct = 0) ∧
    (base.peak_kw ≠ 0 → (savings_for base costs).peak_kw_reduction_pct =
      (1 - costs.peak_kw / base.peak_kw) * 100) ∧
    (base.total_cost ≠ 0 → (savings_for base costs).total_cost_savings_pct =
      (1 - costs.total_cost / base.total_cost) * 100) := by
  refine ⟨fun h => ?_, fun h => ?_, fun h => ?_, fun h => ?_⟩ <;>
    simp [savings_for, h]

/-- Witness for C7: a baseline with zero peak and zero total cost yields zero
percentages. -/
theorem C7_savings_zero_guards_witness :
    (savings_for ⟨0, 0, 0, 0, 0⟩ ⟨1, 2, 3, 4, 5⟩).peak_kw_reduction_pct = 0 ∧
    (savings_for ⟨0, 0, 0, 0, 0⟩ ⟨1, 2, 3, 4, 5⟩).total_cost_savings_pct = 0 :=
  ⟨(C7_savings_zero_guards ⟨0, 0, 0, 0, 0⟩ ⟨1, 2, 3, 4, 5⟩).1 rfl,
   (C7_savings_zero_guards ⟨0, 0, 0, 0, 0⟩ ⟨1, 2, 3, 4, 5⟩).2.1 rfl⟩

/-! ## C2: session priority ordering -/

instance (binm : ℚ) : IsTotal Session (priorityRel binm) where
  total a b := by
    rcases lt_trichotomy (tightness binm a) (tightness binm b) with h | h | h
    · exact Or.inr (Or.inl h)
    · rcases le_total a.earliest_start b.earliest_start with he | he
      · exact Or.inl (Or.inr ⟨h, he⟩)
      · exact Or.inr (Or.inr ⟨h.symm, he⟩)
    · exact Or.inl (Or.inl h)

instance (binm : ℚ) : IsTrans Session (priorityRel binm) where
  trans a b c hab hbc := by
    rcases hab with hab | ⟨haeq, hea⟩
    · rcases hbc with hbc | ⟨hbeq, _⟩
      · exact Or.inl (hbc.trans hab)
      · exact Or.inl (by rw [← hbeq]; exact hab)
    · rcases hbc with hbc | ⟨hbeq, heb⟩
      · exact Or.inl (by rw [haeq]; exact hbc)
      · exact Or.inr ⟨haeq.trans hbeq, hea.trans heb⟩

/-- C2 (amended): the greedy scheduler processes sessions in the order of a
stable sort by tightness descending, ties broken by earliest_start ascending,
where `tightness = energy_kwh / (max_kw × window_bins × bin_hours)` and
`window_bins = max(1, (latest_end − earliest_start)/bin_width)` is the exact
minutes ratio clipped below at 1 — no ceiling is applied. The processed list
is a permutation of the input, pairwise ordered by that priority relation,
and greedyRun folds over exactly that list. -/
theorem C2_priority_order (binm : ℚ) (sessions : List Session) :
    (sortedSessions binm sessions).Perm sessions ∧
      List.Pairwise (priorityRel binm) (sortedSessions binm sessions) ∧
      ∀ (idx : List ℚ) (cap : ℚ) (maxCC : ℕ),
        greedyRun sessions idx binm cap maxCC =
          (sortedSessions binm sessions).foldl
            (processSession idx (binm / 60) cap maxCC)
            ⟨fun _ => 0, fun _ => 0, []⟩ :=
  ⟨List.perm_insertionSort (priorityRel binm) sessions,
   List.sorted_insertionSort (priorityRel binm) sessions,
   fun _ _ _ => rfl⟩

/-- Counterexample for C2 as stated: the source computes `window_bins` without
a ceiling. For a session whose 20-minute window is not a whole multiple of the
15-minute bin width, the code value is 4/3 while the claimed
`max(1, ceil(20/15)) = 2`. -/
theorem C2_counterexample :
    ¬(window_bins 15 ⟨0, 0, 0, 20, 1, 1⟩ = specWindowBins 15 ⟨0, 0, 0, 20, 1, 1⟩) := by
  intro h
  have h1 : window_bins 15 ⟨0, 0, 0, 20, 1, 1⟩ = 4 / 3 := by
    unfold window_bins
    rw [max_eq_left (by norm_num)]
    norm_num
  have h2 : specWindowBins 15 ⟨0, 0, 0, 20, 1, 1⟩ = 2 := by
    unfold specWindowBins
    have hc : ⌈((⟨0, 0, 0, 20, 1, 1⟩ : Session).latest_end -
        (⟨0, 0, 0, 20, 1, 1⟩ : Session).earliest_start) / 15⌉ = (2 : ℤ) := by
      rw [Int.ceil_eq_iff]; norm_num
    rw [hc, max_eq_right (by norm_num)]
    norm_num
  rw [h1, h2] at h
  norm_num at h

/-! ## C1: the greedy schedule respects its own constraints -/

lemma allocSession_bounds {binh cap : ℚ} {maxCC : ℕ} {s : Session}
    (hbinh : 0 < binh) :
    ∀ (fuel : ℕ) (bins : List ℚ) (needed : ℚ) (st : GState),
      (∀ u, st.chargers u ≤ maxCC ∧ st.load u ≤ cap) →
      ∀ u, (allocSession binh cap maxCC s fuel bins needed st).chargers u ≤ maxCC ∧
        (allocSession binh cap maxCC s fuel bins needed st).load u ≤ cap := by
  intro fuel
  induction fuel with
  | zero =>
    intro bins needed st hst u
    simpa [allocSession] using hst u
  | succ fuel ih =>
    intro bins needed st hst u
    simp only [allocSession]
    split
    · rcases hp : pickMin st.load s.max_kw
          (feasibleFor st.load st.chargers maxCC cap s.max_kw bins) with _ | t
      · simp only [hp]
        exact hst u
      · simp only [hp]
        obtain ⟨htb, hcc, hload⟩ := mem_feasibleFor (pickMin_mem hp)
        refine ih _ _ _ ?_ u
        intro v
        constructor
        · by_cases hv : v = t
          · subst hv
            simp only [eq_self_iff_true, if_true]
            exact hcc
          · simp only [if_neg hv]
            exact (hst v).1
        · by_cases hv : v = t
          · subst hv
            simp only [eq_self_iff_true, if_true]
            have hmin : min needed (s.max_kw * binh) / binh ≤ s.max_kw := by
              rw [div_le_iff₀ hbinh]
              exact min_le_right _ _
            linarith
          · simp only [if_neg hv]
            exact (hst v).2
    · exact hst u

lemma foldGreedy_bounds {idx : List ℚ} {binh cap : ℚ} {maxCC : ℕ}
    (hbinh : 0 < binh) :
    ∀ (ss : List Session) (st : GState),
      (∀ u, st.chargers u ≤ maxCC ∧ st.load u ≤ cap) →
      ∀ u, (ss.foldl (processSession idx binh cap maxCC) st).chargers u ≤ maxCC ∧
        (ss.foldl (processSession idx binh cap maxCC) st).load u ≤ cap := by
  intro ss
  induction ss with
  | nil =>
    intro st hst u
    simpa using hst u
  | cons s ss ih =>
    intro st hst u
    rw [List.foldl_cons]
    refine ih _ ?_ u
    simp only [processSession]
    by_cases hbins : sessionBins idx s = []
    · simpa [hbins] using hst
    · simpa [hbins] using allocSession_bounds hbinh _ _ _ _ hst

/-- C1 (amended): for every run of greedy_optimize_schedule on pre-validated
sessions (energy_kwh ≥ 0, max_kw > 0), with a positive bin width and a
nonnegative depot power cap, every bin has charger count at most
max_concurrent_chargers and load at most depot_power_cap_kw. The cap must be
nonnegative because bins that never receive a delivery keep their initial
zero load. -/
theorem C1_capacity_constraints (sessions : List Session) (idx : List ℚ)
    (binm cap : ℚ) (maxCC : ℕ)
    (_hval : ∀ s ∈ sessions, 0 ≤ s.energy_kwh ∧ 0 < s.max_kw)
    (hbin : 0 < binm) (hcap : 0 ≤ cap) :
    ∀ t, (greedyRun sessions idx binm cap maxCC).chargers t ≤ maxCC ∧
      (greedyRun sessions idx binm cap maxCC).load t ≤ cap := by
  intro t
  unfold greedyRun
  exact foldGreedy_bounds (div_pos hbin (by norm_num)) _ _
    (fun u => ⟨Nat.zero_le _, hcap⟩) t

/-- Witness for C1 on a concrete run with a valid session, positive bin width
and nonnegative cap. -/
theorem C1_capacity_constraints_witness :
    (greedyRun [⟨1, 1, 0, 30, 5, 10⟩] [0, 15] 15 10 2).chargers 0 ≤ 2 ∧
    (greedyRun [⟨1, 1, 0, 30, 5, 10⟩] [0, 15] 15 10 2).load 0 ≤ 10 :=
  C1_capacity_constraints [⟨1, 1, 0, 30, 5, 10⟩] [0, 15] 15 10 2
    (by
      intro s hs
      simp only [List.mem_singleton] at hs
      subst hs
      exact ⟨by norm_num, by norm_num⟩)
    (by norm_num) (by norm_num) 0

/-- Counterexample for C1 as stated: with a negative depot power cap (which
the claim's pre-validation clause does not exclude) nothing is ever
scheduled, yet the untouched bins keep load 0, which exceeds the cap. -/
theorem C1_counterexample :
    ¬((greedyRun [⟨1, 1, 0, 30, 5, 10⟩] [0, 15] 15 (-1) 1).load 0 ≤ -1) := by
  norm_num [greedyRun, sortedSessions, processSession, sessionBins, allocSession,
    feasibleFor, pickMin, tol, List.insertionSort, List.orderedInsert]

/-! ## C9: the load curve is the sum of the exact per-entry kilowatts -/

/-- Sum of the exact `kw` values of the rows landing in bin `u`. -/
def sumKwAt (rows : List ScheduleEntry) (u : ℚ) : ℚ :=
  ((rows.filter fun e => decide (e.bin_start = u)).map fun e => e.kw).sum

/-- Number of rows landing in bin `u`. -/
def countAt (rows : List ScheduleEntry) (u : ℚ) : ℕ :=
  (rows.filter fun e => decide (e.bin_start = u)).length

lemma sumKwAt_append (rows : List ScheduleEntry) (e : ScheduleEntry) (u : ℚ) :
    sumKwAt (rows ++ [e]) u =
      sumKwAt rows u + (if e.bin_start = u then e.kw else 0) := by
  by_cases he : e.bin_start = u <;>
    simp [sumKwAt, List.filter_append, he]

lemma countAt_append (rows : List ScheduleEntry) (e : ScheduleEntry) (u : ℚ) :
    countAt (rows ++ [e]) u =
      countAt rows u + (if e.bin_start = u then 1 else 0) := by
  by_cases he : e.bin_start = u <;>
    simp [countAt, List.filter_append, he]

lemma allocSession_acc {binh cap : ℚ} {maxCC : ℕ} {s : Session} :
    ∀ (fuel : ℕ) (bins : List ℚ) (needed : ℚ) (st : GState),
      (∀ u, st.load u = sumKwAt st.rows u ∧ st.chargers u = countAt st.rows u) →
      ∀ u, (allocSession binh cap maxCC s fuel bins needed st).load u =
          sumKwAt (allocSession binh cap maxCC s fuel bins needed st).rows u ∧
        (allocSession binh cap maxCC s fuel bins needed st).chargers u =
          countAt (allocSession binh cap maxCC s fuel bins needed st).rows u := by
  intro fuel
  induction fuel with
  | zero =>
    intro bins needed st hst u
    simpa [allocSession] using hst u
  | succ fuel ih =>
    intro bins needed st hst u
    simp only [allocSession]
    split
    · rcases hp : pickMin st.load s.max_kw
          (feasibleFor st.load st.chargers maxCC cap s.max_kw bins) with _ | t
      · simp only [hp]
        exact hst u
      · simp only [hp]
        refine ih _ _ _ ?_ u
        intro v
        rw [sumKwAt_append, countAt_append]
        constructor
        · by_cases hv : v = t
          · subst hv
            simp only [eq_self_iff_true, if_true]
            rw [(hst v).1]
          · simp only [if_neg hv, if_neg (Ne.symm hv), add_zero]
            exact (hst v).1
        · by_cases hv : v = t
          · subst hv
            simp only [eq_self_iff_true, if_true]
            rw [(hst v).2]
          · simp only [if_neg hv, if_neg (Ne.symm hv), add_zero]
            exact (hst v).2
    · exact hst u

lemma foldGreedy_acc {idx : List ℚ} {binh cap : ℚ} {maxCC : ℕ} :
    ∀ (ss : List Session) (st : GState),
      (∀ u, st.load u = sumKwAt st.rows u ∧ st.chargers u = countAt st.rows u) →
      ∀ u, (ss.foldl (processSession idx binh cap maxCC) st).load u =
          sumKwAt (ss.foldl (processSession idx binh cap maxCC) st).rows u ∧
        (ss.foldl (processSession idx binh cap maxCC) st).chargers u =
          countAt (ss.foldl (processSession idx binh cap maxCC) st).rows u := by
  intro ss
  induction ss with
  | nil =>
    intro st hst u
    simpa using hst u
  | cons s ss ih =>
    intro st hst u
    rw [List.foldl_cons]
    refine ih _ ?_ u
    simp only [processSession]
    by_cases hbins : sessionBins idx s = []
    · simpa [hbins] using hst
    · simpa [hbins] using allocSession_acc _ _ _ _ hst

lemma countAt_map_roundEntry (rows : List ScheduleEntry) (u : ℚ) :
    countAt (rows.map roundEntry) u = countAt rows u := by
  induction rows with
  | nil => rfl
  | cons e rows ih =>
    by_cases he : e.bin_start = u <;>
      simp [countAt, roundEntry, he] at ih ⊢ <;> exact ih

/-- C9: at the end of greedy_optimize_schedule, the returned load at every bin
equals the sum of the exact (pre-rounding) delivered kW over the internal rows
of that bin, and the internal charger count at every bin equals the number of
schedule entries emitted for that bin. -/
theorem C9_load_equals_row_sums (sessions : List Session) (idx : List ℚ)
    (binm cap : ℚ) (maxCC : ℕ) :
    ∀ t, (greedy_optimize_schedule sessions idx binm cap maxCC).2 t =
        sumKwAt (greedyRun sessions idx binm cap maxCC).rows t ∧
      (greedyRun sessions idx binm cap maxCC).chargers t =
        countAt ((greedy_optimize_schedule sessions idx binm cap maxCC).1) t := by
  intro t
  have h := @foldGreedy_acc idx (binm / 60) cap maxCC (sortedSessions binm sessions)
    ⟨fun _ => 0, fun _ => 0, []⟩
    (fun u => ⟨by simp [sumKwAt], by simp [countAt]⟩) t
  constructor
  · exact h.1
  · rw [show (greedy_optimize_schedule sessions idx binm cap maxCC).1 =
        (greedyRun sessions idx binm cap maxCC).rows.map roundEntry from rfl,
      countAt_map_roundEntry]
    exact h.2

/-! ## Row structure of the greedy allocation -/

lemma allocSession_rows {binh cap : ℚ} {maxCC : ℕ} {s : Session} :
    ∀ (fuel : ℕ) (bins : List ℚ) (needed : ℚ) (st : GState),
      ∃ new, (allocSession binh cap maxCC s fuel bins needed st).rows = st.rows ++ new ∧
        (∀ e ∈ new, e.session_id = s.session_id ∧ e.vehicle_id = s.vehicle_id ∧
          e.bin_start ∈ bins ∧
          (0 < binh → e.kwh = e.kw * binh ∧ e.kw ≤ s.max_kw)) ∧
        (bins.Nodup → (new.map fun e => e.bin_start).Nodup) := by
  intro fuel
  induction fuel with
  | zero =>
    intro bins needed st
    exact ⟨[], by simp [allocSession], by simp, by simp⟩
  | succ fuel ih =>
    intro bins needed st
    simp only [allocSession]
    split
    · rcases hp : pickMin st.load s.max_kw
          (feasibleFor st.load st.chargers maxCC cap s.max_kw bins) with _ | t
      · simp only [hp]
        exact ⟨[], by simp, by simp, by simp⟩
      · simp only [hp]
        obtain ⟨hin, hcc, hload⟩ := mem_feasibleFor (pickMin_mem hp)
        obtain ⟨nr, hrows, hprops, hnd⟩ :=
          ih (bins.erase t) (needed - min needed (s.max_kw * binh))
            { load := fun u =>
                if u = t then st.load u + min needed (s.max_kw * binh) / binh
                else st.load u
              chargers := fun u => if u = t then st.chargers u + 1 else st.chargers u
              rows := st.rows ++ [⟨s.session_id, s.vehicle_id, t,
                min needed (s.max_kw * binh) / binh, min needed (s.max_kw * binh)⟩] }
        refine ⟨⟨s.session_id, s.vehicle_id, t, min needed (s.max_kw * binh) / binh,
          min needed (s.max_kw * binh)⟩ :: nr, ?_, ?_, ?_⟩
        · rw [hrows]
          simp
        · intro e he
          rcases List.mem_cons.mp he with rfl | he2
          · refine ⟨rfl, rfl, hin, fun hbinh => ⟨?_, ?_⟩⟩
            · exact (div_mul_cancel₀ _ (ne_of_gt hbinh)).symm
            · rw [div_le_iff₀ hbinh]
              exact min_le_right _ _
          · obtain ⟨h1, h2, h3, h4⟩ := hprops e he2
            exact ⟨h1, h2, List.erase_subset _ _ h3, h4⟩
        · intro hbnd
          simp only [List.map_cons]
          refine List.nodup_cons.mpr ⟨?_, hnd (hbnd.erase t)⟩
          intro hmem
          obtain ⟨e, he, hbe⟩ := List.mem_map.mp hmem
          have h3 := (hprops e he).2.2.1
          rw [hbe] at h3
          exact hbnd.not_mem_erase h3
    · exact ⟨[], by simp, by simp, by simp⟩

lemma processSession_rows {idx : List ℚ} {binh cap : ℚ} {maxCC : ℕ} {s : Session}
    {st : GState} :
    ∃ new, (processSession idx binh cap maxCC st s).rows = st.rows ++ new ∧
      (∀ e ∈ new, e.session_id = s.session_id ∧ e.vehicle_id = s.vehicle_id ∧
        e.bin_start ∈ sessionBins idx s ∧
        (0 < binh → e.kwh = e.kw * binh ∧ e.kw ≤ s.max_kw)) ∧
      (idx.Nodup → (new.map fun e => e.bin_start).Nodup) := by
  simp only [processSession]
  by_cases hbins : sessionBins idx s = []
  · exact ⟨[], by simp [hbins], by simp, by simp⟩
  · obtain ⟨new, hrows, hprops, hnd⟩ := @allocSession_rows binh cap maxCC s
      (sessionBins idx s).length (sessionBins idx s) s.energy_kwh st
    exact ⟨new, by simp [hbins, hrows], hprops,
      fun hidx => hnd (hidx.filter _)⟩

lemma foldGreedy_rows_prop {idx : List ℚ} {binh cap : ℚ} {maxCC : ℕ}
    (ssAll : List Session) :
    ∀ (ss : List Session) (st : GState), (∀ s ∈ ss, s ∈ ssAll) →
      (∀ e ∈ st.rows, (0 < binh → e.kwh = e.kw * binh) ∧
        ∃ s ∈ ssAll, e.session_id = s.session_id ∧
          (0 < binh → e.kw ≤ s.max_kw)) →
      ∀ e ∈ (ss.foldl (processSession idx binh cap maxCC) st).rows,
        (0 < binh → e.kwh = e.kw * binh) ∧
        ∃ s ∈ ssAll, e.session_id = s.session_id ∧
          (0 < binh → e.kw ≤ s.max_kw) := by
  intro ss
  induction ss with
  | nil =>
    intro st _ hst e he
    exact hst e he
  | cons s ss ih =>
    intro st hss hst e he
    rw [List.foldl_cons] at he
    refine ih _ (fun x hx => hss x (List.mem_cons_of_mem s hx)) ?_ e he
    intro x hx
    obtain ⟨new, hrows, hprops, _⟩ :=
      @processSession_rows idx binh cap maxCC s st
    rw [hrows] at hx
    rcases List.mem_append.mp hx with hx | hx
    · exact hst x hx
    · obtain ⟨h1, _, _, h4⟩ := hprops x hx
      exact ⟨fun hb => (h4 hb).1,
        ⟨s, hss s (List.mem_cons_self s ss), h1, fun hb => (h4 hb).2⟩⟩

/-- C10: every emitted ScheduleEntry is the 3-decimal rounding of an internal
exact row; for every exact row, kwh = kw × bin_hours holds exactly and the
exact kw is at most the max_kw of the session carrying that session_id
(the internal load and remaining-energy bookkeeping use these unrounded
values). -/
theorem C10_entries_rounded (sessions : List Session) (idx : List ℚ)
    (binm cap : ℚ) (maxCC : ℕ) (hbin : 0 < binm)
    (hsid : (sessions.map Session.session_id).Nodup) :
    (∀ e ∈ (greedy_optimize_schedule sessions idx binm cap maxCC).1,
      ∃ x ∈ (greedyRun sessions idx binm cap maxCC).rows,
        e = roundEntry x) ∧
    (∀ x ∈ (greedyRun sessions idx binm cap maxCC).rows,
      x.kwh = x.kw * (binm / 60) ∧
      ∀ s ∈ sessions, s.session_id = x.session_id → x.kw ≤ s.max_kw) ∧
    (∀ t, (greedyRun sessions idx binm cap maxCC).load t =
      sumKwAt (greedyRun sessions idx binm cap maxCC).rows t) := by
  have hbinh : (0 : ℚ) < binm / 60 := div_pos hbin (by norm_num)
  have hperm : (sortedSessions binm sessions).Perm sessions :=
    List.perm_insertionSort (priorityRel binm) sessions
  refine ⟨?_, ?_, ?_⟩
  · intro e he
    obtain ⟨x, hx, hxe⟩ := List.mem_map.mp he
    exact ⟨x, hx, hxe.symm⟩
  · intro x hx
    have hmain := foldGreedy_rows_prop sessions (sortedSessions binm sessions)
      ⟨fun _ => 0, fun _ => 0, []⟩ (fun s hs => hperm.subset hs)
      (fun e he => absurd he (List.not_mem_nil e)) x hx
    obtain ⟨h1, s, hs, hsidx, hkw⟩ := hmain
    refine ⟨h1 hbinh, ?_⟩
    intro s2 hs2 hsid2
    have : s2 = s := by
      have hinj := List.inj_on_of_nodup_map hsid
      exact hinj hs2 hs (by rw [hsid2]; exact hsidx)
    rw [this]
    exact hkw hbinh
  · intro t
    exact (@foldGreedy_acc idx (binm / 60) cap maxCC (sortedSessions binm sessions)
      ⟨fun _ => 0, fun _ => 0, []⟩
      (fun u => ⟨by simp [sumKwAt], by simp [countAt]⟩) t).1

/-- Witness for C10 on a concrete run. -/
theorem C10_entries_rounded_witness :
    (∀ e ∈ (greedy_optimize_schedule [⟨1, 1, 0, 30, 5, 10⟩] [0, 15] 15 10 2).1,
      ∃ x ∈ (greedyRun [⟨1, 1, 0, 30, 5, 10⟩] [0, 15] 15 10 2).rows,
        e = roundEntry x) ∧
    (∀ x ∈ (greedyRun [⟨1, 1, 0, 30, 5, 10⟩] [0, 15] 15 10 2).rows,
      x.kwh = x.kw * (15 / 60) ∧
      ∀ s ∈ ([⟨1, 1, 0, 30, 5, 10⟩] : List Session),
        s.session_id = x.session_id → x.kw ≤ s.max_kw) ∧
    (∀ t, (greedyRun [⟨1, 1, 0, 30, 5, 10⟩] [0, 15] 15 10 2).load t =
      sumKwAt (greedyRun [⟨1, 1, 0, 30, 5, 10⟩] [0, 15] 15 10 2).rows t) :=
  C10_entries_rounded [⟨1, 1, 0, 30, 5, 10⟩] [0, 15] 15 10 2
    (by norm_num) (by simp)

/-! ## C5: no session is double-booked into the same bin -/

lemma foldGreedy_pairwise {idx : List ℚ} {binh cap : ℚ} {maxCC : ℕ}
    (hidx : idx.Nodup) :
    ∀ (ss : List Session) (st : GState),
      ((ss.map Session.session_id).Nodup) →
      (∀ e ∈ st.rows, e.session_id ∉ ss.map Session.session_id) →
      st.rows.Pairwise
        (fun a b => a.session_id = b.session_id → a.bin_start ≠ b.bin_start) →
      ((ss.foldl (processSession idx binh cap maxCC) st).rows).Pairwise
        (fun a b => a.session_id = b.session_id → a.bin_start ≠ b.bin_start) := by
  intro ss
  induction ss with
  | nil =>
    intro st _ _ hp
    simpa using hp
  | cons s ss ih =>
    intro st hnd hnotin hp
    rw [List.foldl_cons]
    obtain ⟨new, hrows, hprops, hndnew⟩ := @processSession_rows idx binh cap maxCC s st
    have hnd2 : (Session.session_id s :: ss.map Session.session_id).Nodup := by
      simpa using hnd
    have hhead : s.session_id ∉ ss.map Session.session_id :=
      (List.nodup_cons.mp hnd2).1
    have hnd' : (ss.map Session.session_id).Nodup := (List.nodup_cons.mp hnd2).2
    refine ih _ hnd' ?_ ?_
    · intro e he
      rw [hrows] at he
      rcases List.mem_append.mp he with he | he
      · intro hmem
        refine hnotin e he ?_
        simp only [List.map_cons]
        exact List.mem_cons_of_mem _ hmem
      · rw [(hprops e he).1]
        exact hhead
    · rw [hrows, List.pairwise_append]
      refine ⟨hp, ?_, ?_⟩
      · refine ((List.pairwise_map).mp (hndnew hidx)).imp ?_
        intro a b h heq
        exact h
      intro a ha b hb heq
      exact absurd
        (show a.session_id ∈ (s :: ss).map Session.session_id by
          rw [heq, (hprops b hb).1]
          simp)
        (hnotin a ha)

/-- C5: in the schedule returned by greedy_optimize_schedule (over a
duplicate-free time grid and duplicate-free session identifiers), no two
entries carry the same session_id and the same bin_start: each session is
booked at most once per bin. -/
theorem C5_no_double_booking (sessions : List Session) (idx : List ℚ)
    (binm cap : ℚ) (maxCC : ℕ) (hidx : idx.Nodup)
    (hsid : (sessions.map Session.session_id).Nodup) :
    ((greedy_optimize_schedule sessions idx binm cap maxCC).1).Pairwise
      (fun a b => a.session_id = b.session_id → a.bin_start ≠ b.bin_start) := by
  have hperm : (sortedSessions binm sessions).Perm sessions :=
    List.perm_insertionSort (priorityRel binm) sessions
  have hsort_nd : ((sortedSessions binm sessions).map Session.session_id).Nodup :=
    (hperm.map Session.session_id).nodup_iff.mpr hsid
  have hrows := @foldGreedy_pairwise idx (binm / 60) cap maxCC hidx
    (sortedSessions binm sessions)
    ⟨fun _ => 0, fun _ => 0, []⟩ hsort_nd (by simp) (by simp)
  show ((greedyRun sessions idx binm cap maxCC).rows.map roundEntry).Pairwise _
  rw [List.pairwise_map]
  exact hrows.imp fun h => h

/-- Witness for C5 on a concrete run that emits two entries in distinct bins. -/
theorem C5_no_double_booking_witness :
    ((greedy_optimize_schedule [⟨1, 1, 0, 30, 5, 10⟩] [0, 15] 15 10 2).1).Pairwise
      (fun a b => a.session_id = b.session_id → a.bin_start ≠ b.bin_start) :=
  C5_no_double_booking [⟨1, 1, 0, 30, 5, 10⟩] [0, 15] 15 10 2
    (by norm_num [List.nodup_cons]) (by simp)

/-! ## C4: total delivered energy versus total requested energy -/

lemma sum_map_update {f : ℚ → ℚ} {t d : ℚ} :
    ∀ (idx : List ℚ), idx.Nodup → t ∈ idx →
      (idx.map fun u => if u = t then f u + d else f u).sum = (idx.map f).sum + d := by
  intro idx
  induction idx with
  | nil =>
    intro _ h
    exact absurd h (List.not_mem_nil t)
  | cons a l ih =>
    intro hnd hmem
    obtain ⟨hna, hndl⟩ := List.nodup_cons.mp hnd
    simp only [List.map_cons, List.sum_cons]
    rcases List.mem_cons.mp hmem with heq | hmem2
    · subst heq
      rw [if_pos rfl]
      have htail : (l.map fun u => if u = t then f u + d else f u) = l.map f := by
        refine List.map_congr_left fun u hu => if_neg fun h => hna ?_
        rw [← h]
        exact hu
      rw [htail]
      ring
    · have hat : ¬(a = t) := fun h => hna (by rw [h]; exact hmem2)
      rw [if_neg hat, ih hndl hmem2]
      ring

lemma allocSession_sum {idx : List ℚ} {binh cap : ℚ} {maxCC : ℕ} {s : Session}
    (hnd : idx.Nodup) (hbinh : 0 < binh) :
    ∀ (fuel : ℕ) (bins : List ℚ) (needed : ℚ) (st : GState),
      bins ⊆ idx → 0 ≤ needed →
      (idx.map (allocSession binh cap maxCC s fuel bins needed st).load).sum ≤
        (idx.map st.load).sum + needed / binh := by
  intro fuel
  induction fuel with
  | zero =>
    intro bins needed st _ hn
    simp only [allocSession]
    have h0 : 0 ≤ needed / binh := div_nonneg hn hbinh.le
    linarith
  | succ fuel ih =>
    intro bins needed st hsub hn
    simp only [allocSession]
    split
    · rcases hp : pickMin st.load s.max_kw
          (feasibleFor st.load st.chargers maxCC cap s.max_kw bins) with _ | t
      · simp only [hp]
        have h0 : 0 ≤ needed / binh := div_nonneg hn hbinh.le
        linarith
      · simp only [hp]
        obtain ⟨hin, _, _⟩ := mem_feasibleFor (pickMin_mem hp)
        have htidx : t ∈ idx := hsub hin
        have hrec := ih (bins.erase t) (needed - min needed (s.max_kw * binh))
          { load := fun u =>
              if u = t then st.load u + min needed (s.max_kw * binh) / binh
              else st.load u
            chargers := fun u => if u = t then st.chargers u + 1 else st.chargers u
            rows := st.rows ++ [⟨s.session_id, s.vehicle_id, t,
              min needed (s.max_kw * binh) / binh, min needed (s.max_kw * binh)⟩] }
          (fun x hx => hsub (List.erase_subset _ _ hx))
          (by
            have hm := min_le_left needed (s.max_kw * binh)
            linarith)
        dsimp only at hrec
        have hsum := @sum_map_update st.load t (min needed (s.max_kw * binh) / binh)
          idx hnd htidx
        have hdiv : min needed (s.max_kw * binh) / binh +
            (needed - min needed (s.max_kw * binh)) / binh = needed / binh := by
          rw [div_add_div_same]
          congr 1
          ring
        linarith
    · have h0 : 0 ≤ needed / binh := div_nonneg hn hbinh.le
      linarith

lemma foldGreedy_sum {idx : List ℚ} {binh cap : ℚ} {maxCC : ℕ}
    (hnd : idx.Nodup) (hbinh : 0 < binh) :
    ∀ (ss : List Session) (st : GState), (∀ s ∈ ss, 0 ≤ s.energy_kwh) →
      (idx.map (ss.foldl (processSession idx binh cap maxCC) st).load).sum ≤
        (idx.map st.load).sum + (ss.map Session.energy_kwh).sum / binh := by
  intro ss
  induction ss with
  | nil =>
    intro st _
    simp
  | cons s ss ih =>
    intro st hE
    rw [List.foldl_cons]
    have h1 := ih (processSession idx binh cap maxCC st s)
      (fun x hx => hE x (List.mem_cons_of_mem s hx))
    have h2 : (idx.map (processSession idx binh cap maxCC st s).load).sum ≤
        (idx.map st.load).sum + s.energy_kwh / binh := by
      simp only [processSession]
      by_cases hbins : sessionBins idx s = []
      · have h0 : 0 ≤ s.energy_kwh / binh :=
          div_nonneg (hE s (List.mem_cons_self s ss)) hbinh.le
        simp only [hbins, eq_self_iff_true, if_true]
        linarith
      · simp only [if_neg hbins]
        exact allocSession_sum hnd hbinh _ _ _ _ (List.filter_subset' _)
          (hE s (List.mem_cons_self s ss))
    have hdiv : s.energy_kwh / binh + (ss.map Session.energy_kwh).sum / binh =
        ((s :: ss).map Session.energy_kwh).sum / binh := by
      simp only [List.map_cons, List.sum_cons]
      rw [div_add_div_same]
    linarith

/-- C4 (amended): the exact (unrounded) total delivered energy of a greedy
run — the returned load curve summed over the grid times bin_hours — is at
most the sum of energy_kwh over all input sessions. The claim as stated,
about the rounded kwh column of the returned schedule, fails: each row is
rounded to 3 decimals, which can round up. -/
theorem C4_total_delivered_bounded (sessions : List Session) (idx : List ℚ)
    (binm cap : ℚ) (maxCC : ℕ) (hidx : idx.Nodup) (hbin : 0 < binm)
    (hE : ∀ s ∈ sessions, 0 ≤ s.energy_kwh) :
    (idx.map (greedy_optimize_schedule sessions idx binm cap maxCC).2).sum *
        (binm / 60) ≤
      (sessions.map Session.energy_kwh).sum := by
  have hbinh : (0 : ℚ) < binm / 60 := div_pos hbin (by norm_num)
  have hperm := List.perm_insertionSort (priorityRel binm) sessions
  have h := @foldGreedy_sum idx (binm / 60) cap maxCC hidx hbinh
    (sortedSessions binm sessions) ⟨fun _ => 0, fun _ => 0, []⟩
    (fun s hs => hE s (hperm.subset hs))
  dsimp only at h
  have hzero : (idx.map fun _ : ℚ => (0 : ℚ)).sum = 0 := by simp
  have hsum_eq : ((sortedSessions binm sessions).map Session.energy_kwh).sum =
      (sessions.map Session.energy_kwh).sum :=
    (hperm.map Session.energy_kwh).sum_eq
  rw [hzero, hsum_eq] at h
  rw [show (greedy_optimize_schedule sessions idx binm cap maxCC).2 =
      (greedyRun sessions idx binm cap maxCC).load from rfl]
  unfold greedyRun
  rw [← le_div_iff₀ hbinh]
  linarith

/-- Witness for C4 (amended) on a concrete run. -/
theorem C4_total_delivered_bounded_witness :
    (([0, 15] : List ℚ).map
        (greedy_optimize_schedule [⟨1, 1, 0, 30, 5, 10⟩] [0, 15] 15 10 2).2).sum *
      (15 / 60) ≤
      (([⟨1, 1, 0, 30, 5, 10⟩] : List Session).map Session.energy_kwh).sum :=
  C4_total_delivered_bounded [⟨1, 1, 0, 30, 5, 10⟩] [0, 15] 15 10 2
    (by norm_num [List.nodup_cons]) (by norm_num)
    (by
      intro s hs
      simp only [List.mem_singleton] at hs
      subst hs
      norm_num)

/-- Counterexample for C4 as stated: a session requesting 0.00051 kWh is
served in one bin; its kwh field rounds to 0.001, so the rounded schedule
column sums to 0.001 > 0.00051 = total requested energy. -/
theorem C4_counterexample :
    ¬((((greedy_optimize_schedule [⟨1, 1, 0, 15, 51 / 100000, 1⟩] [0] 15 10 1).1.map
        (fun e => e.kwh)).sum) ≤
      (([⟨1, 1, 0, 15, 51 / 100000, 1⟩] : List Session).map Session.energy_kwh).sum) := by
  have h0 : ⌊(51 : ℚ) / 100⌋ = 0 := by
    rw [Int.floor_eq_iff]; norm_num
  norm_num [greedy_optimize_schedule, greedyRun, sortedSessions, List.insertionSort,
    List.orderedInsert, processSession, sessionBins, allocSession, feasibleFor,
    pickMin, tol, roundEntry, round3, roundHalfEven, min_def, h0]

/-! ## C3: baseline delivery is bounded by the requested energy -/

lemma baselineWalk_needed_nonneg {idx : List ℚ} {binm binh endT kw : ℚ} :
    ∀ (fuel : ℕ) (t needed : ℚ) (load : ℚ → ℚ), 0 ≤ needed →
      0 ≤ (baselineWalk idx binm binh endT kw fuel t needed load).2 := by
  intro fuel
  induction fuel with
  | zero =>
    intro t needed load hn
    exact hn
  | succ fuel ih =>
    intro t needed load hn
    simp only [baselineWalk]
    split
    · split
      · refine ih _ _ _ ?_
        have hm := min_le_left needed (kw * binh)
        linarith
      · exact ih _ _ _ hn
    · exact hn

lemma baselineWalk_needed_le {idx : List ℚ} {binm binh endT kw : ℚ}
    (hbatch : 0 ≤ kw * binh) :
    ∀ (fuel : ℕ) (t needed : ℚ) (load : ℚ → ℚ),
      (∀ k : ℕ, k < fuel → (t + k * binm) ∈ idx ∧ t + k * binm < endT) →
      (baselineWalk idx binm binh endT kw fuel t needed load).2 ≤
        max tol (needed - fuel * (kw * binh)) := by
  intro fuel
  induction fuel with
  | zero =>
    intro t needed load _
    have h : needed - ((0 : ℕ) : ℚ) * (kw * binh) = needed := by
      push_cast
      ring
    rw [h]
    exact le_max_right _ _
  | succ fuel ih =>
    intro t needed load hk
    have h0 := hk 0 (Nat.succ_pos fuel)
    have ht_idx : t ∈ idx := by simpa using h0.1
    have ht_end : t < endT := by simpa using h0.2
    simp only [baselineWalk]
    by_cases hne : tol < needed
    · rw [if_pos ⟨hne, ht_end⟩, if_pos ht_idx]
      have hshift : ∀ k : ℕ, k < fuel →
          (t + binm + k * binm) ∈ idx ∧ t + binm + k * binm < endT := by
        intro k hkf
        have h := hk (k + 1) (Nat.succ_lt_succ hkf)
        have harith : t + ((k : ℚ) + 1) * binm = t + binm + k * binm := by ring
        rw [show ((k + 1 : ℕ) : ℚ) = (k : ℚ) + 1 by push_cast; ring, harith] at h
        exact h
      refine le_trans (ih (t + binm) (needed - min needed (kw * binh)) _ hshift) ?_
      apply max_le (le_max_left _ _)
      rcases le_total (kw * binh) needed with hc | hc
      · rw [min_eq_right hc]
        have h : needed - kw * binh - (fuel : ℚ) * (kw * binh) =
            needed - ((fuel + 1 : ℕ) : ℚ) * (kw * binh) := by
          push_cast
          ring
        rw [h]
        exact le_max_right _ _
      · rw [min_eq_left hc]
        refine le_trans ?_ (le_max_left _ _)
        have hf : 0 ≤ (fuel : ℚ) * (kw * binh) :=
          mul_nonneg (Nat.cast_nonneg fuel) hbatch
        have htol : (0 : ℚ) < tol := by norm_num [tol]
        linarith
    · rw [if_neg (fun h => hne h.1)]
      exact le_trans (not_lt.mp hne) (le_max_left _ _)

/-- C3 (amended): for every session with energy_kwh ≥ 0 processed by the
baseline simulator, the remaining energy after the walk is nonnegative, so
the delivered energy is at most energy_kwh. The walk starts at
earliest_start itself (not at the enclosing grid bin), stepping one bin
width at a time; when every visited step lands on the grid and
energy_kwh ≤ steps × max_kw × bin_hours, the walk delivers all but at most
the 1e-6 stopping tolerance. -/
theorem C3_baseline_delivery (idx : List ℚ) (binm binh : ℚ) (s : Session)
    (load : ℚ → ℚ) (hE : 0 ≤ s.energy_kwh) :
    0 ≤ (baselineWalk idx binm binh s.latest_end s.max_kw
        (walkSteps binm s.earliest_start s.latest_end)
        s.earliest_start s.energy_kwh load).2 ∧
    (0 < binm → 0 ≤ s.max_kw * binh →
      (∀ k : ℕ, k < walkSteps binm s.earliest_start s.latest_end →
        s.earliest_start + k * binm ∈ idx) →
      s.energy_kwh ≤
        (walkSteps binm s.earliest_start s.latest_end : ℚ) * (s.max_kw * binh) →
      (baselineWalk idx binm binh s.latest_end s.max_kw
        (walkSteps binm s.earliest_start s.latest_end)
        s.earliest_start s.energy_kwh load).2 ≤ tol) := by
  constructor
  · exact baselineWalk_needed_nonneg _ _ _ _ hE
  · intro hbinm hbatch hmem hcap
    have hlt : ∀ k : ℕ, k < walkSteps binm s.earliest_start s.latest_end →
        s.earliest_start + k * binm < s.latest_end := by
      intro k hf
      have h1 : (k : ℤ) < ⌈(s.latest_end - s.earliest_start) / binm⌉ := by
        have h2 := hf
        unfold walkSteps at h2
        omega
      have h3 : (k : ℚ) < (s.latest_end - s.earliest_start) / binm := by
        exact_mod_cast Int.lt_ceil.mp h1
      rw [lt_div_iff₀ hbinm] at h3
      linarith
    have key := baselineWalk_needed_le hbatch
      (walkSteps binm s.earliest_start s.latest_end) s.earliest_start
      s.energy_kwh load (fun k hk => ⟨hmem k hk, hlt k hk⟩)
    refine le_trans key (max_le le_rfl ?_)
    have htol : (0 : ℚ) ≤ tol := by norm_num [tol]
    linarith

lemma walkSteps_0_30 : walkSteps 15 0 30 = 2 := by
  unfold walkSteps
  rw [show ⌈((30 : ℚ) - 0) / 15⌉ = 2 by rw [Int.ceil_eq_iff]; norm_num]
  rfl

lemma walkSteps_5_35 : walkSteps 15 5 35 = 2 := by
  unfold walkSteps
  rw [show ⌈((35 : ℚ) - 5) / 15⌉ = 2 by rw [Int.ceil_eq_iff]; norm_num]
  rfl

/-- Witness for C3 (amended): a session asking exactly its two-bin capacity
of 0.5 kWh on an aligned window delivers everything (remainder 0 ≤ tol). -/
theorem C3_baseline_delivery_witness :
    0 ≤ (baselineWalk [0, 15] 15 (1 / 4) 30 1 (walkSteps 15 0 30) 0 (1 / 2)
        (fun _ => 0)).2 ∧
    (baselineWalk [0, 15] 15 (1 / 4) 30 1 (walkSteps 15 0 30) 0 (1 / 2)
        (fun _ => 0)).2 ≤ tol := by
  have h := C3_baseline_delivery [0, 15] 15 (1 / 4) ⟨1, 1, 0, 30, 1 / 2, 1⟩
    (fun _ => 0) (by norm_num)
  refine ⟨h.1, h.2 (by norm_num) (by norm_num) ?_ ?_⟩
  · intro k hk
    rw [walkSteps_0_30] at hk
    have hk2 : k = 0 ∨ k = 1 := by omega
    rcases hk2 with rfl | rfl <;> norm_num [List.mem_cons]
  · rw [walkSteps_0_30]
    norm_num

/-- Counterexample for C3 as stated. First conjunct: a session with window
[0, 30) lying entirely inside the grid {0, 15} but requesting 10 kWh (more
than its own 0.5 kWh window capacity) ends with remaining energy 19/2 ≠ 0,
so delivered ≠ energy_kwh. Second conjunct: a session starting at minute 5
(not grid-aligned) delivers nothing at all — the walk visits 5 and 20, never
a grid bin — even though grid bin 15 lies inside its window [5, 35); the
walk does not start at "the bin containing earliest_start". -/
theorem C3_counterexample :
    ¬((baselineWalk [0, 15] 15 (1 / 4) 30 1 (walkSteps 15 0 30) 0 10
        (fun _ => 0)).2 = 0) ∧
    (baselineWalk [0, 15] 15 (1 / 4) 35 1 (walkSteps 15 5 35) 5 10
        (fun _ => 0)).2 = 10 := by
  constructor
  · rw [walkSteps_0_30]
    norm_num [baselineWalk, tol, min_def]
  · rw [walkSteps_5_35]
    norm_num [baselineWalk, tol, min_def]

/-! ## C8: both loops terminate within their structural fuel -/

lemma allocSession_nil {binh cap : ℚ} {maxCC : ℕ} {s : Session} :
    ∀ (fuel : ℕ) (needed : ℚ) (st : GState),
      allocSession binh cap maxCC s fuel [] needed st = st := by
  intro fuel needed st
  cases fuel with
  | zero => rfl
  | succ fuel => simp [allocSession, feasibleFor, pickMin]

lemma allocSession_fuel_stable {binh cap : ℚ} {maxCC : ℕ} {s : Session} :
    ∀ (f1 f2 : ℕ) (bins : List ℚ) (needed : ℚ) (st : GState),
      bins.length ≤ f1 → bins.length ≤ f2 →
      allocSession binh cap maxCC s f1 bins needed st =
        allocSession binh cap maxCC s f2 bins needed st := by
  intro f1
  induction f1 with
  | zero =>
    intro f2 bins needed st h1 _
    have hb : bins = [] := List.length_eq_zero.mp (Nat.le_zero.mp h1)
    subst hb
    rw [allocSession_nil, allocSession_nil]
  | succ f1 ih =>
    intro f2 bins needed st h1 h2
    cases f2 with
    | zero =>
      have hb : bins = [] := List.length_eq_zero.mp (Nat.le_zero.mp h2)
      subst hb
      rw [allocSession_nil, allocSession_nil]
    | succ f2 =>
      simp only [allocSession]
      split
      · rcases hp : pickMin st.load s.max_kw
            (feasibleFor st.load st.chargers maxCC cap s.max_kw bins) with _ | t
        · simp only [hp]
        · simp only [hp]
          obtain ⟨hin, _, _⟩ := mem_feasibleFor (pickMin_mem hp)
          have hlen : (bins.erase t).length = bins.length - 1 :=
            List.length_erase_of_mem hin
          have hpos : 0 < bins.length := List.length_pos_of_mem hin
          exact ih f2 _ _ _ (by omega) (by omega)
      · rfl

lemma walkSteps_zero_of_done {binm t endT : ℚ} (hbinm : 0 < binm)
    (h : walkSteps binm t endT = 0) : ¬(t < endT) := by
  intro hlt
  have h1 : (0 : ℚ) < (endT - t) / binm := div_pos (by linarith) hbinm
  have h2 : 0 < ⌈(endT - t) / binm⌉ := Int.ceil_pos.mpr h1
  unfold walkSteps at h
  omega

lemma baselineWalk_done {idx : List ℚ} {binm binh endT kw t : ℚ}
    (hend : ¬(t < endT)) :
    ∀ (fuel : ℕ) (needed : ℚ) (load : ℚ → ℚ),
      baselineWalk idx binm binh endT kw fuel t needed load = (load, needed) := by
  intro fuel needed load
  cases fuel with
  | zero => rfl
  | succ fuel =>
    simp only [baselineWalk]
    rw [if_neg fun hh => hend hh.2]

lemma baselineWalk_fuel_stable {idx : List ℚ} {binm binh endT kw : ℚ}
    (hbinm : 0 < binm) :
    ∀ (f1 f2 : ℕ) (t needed : ℚ) (load : ℚ → ℚ),
      walkSteps binm t endT ≤ f1 → walkSteps binm t endT ≤ f2 →
      baselineWalk idx binm binh endT kw f1 t needed load =
        baselineWalk idx binm binh endT kw f2 t needed load := by
  intro f1
  induction f1 with
  | zero =>
    intro f2 t needed load h1 _
    have hend := walkSteps_zero_of_done hbinm (Nat.le_zero.mp h1)
    rw [baselineWalk_done hend, baselineWalk_done hend]
  | succ f1 ih =>
    intro f2 t needed load h1 h2
    cases f2 with
    | zero =>
      have hend := walkSteps_zero_of_done hbinm (Nat.le_zero.mp h2)
      rw [baselineWalk_done hend, baselineWalk_done hend]
    | succ f2 =>
      by_cases hcond : tol < needed ∧ t < endT
      · have hne : binm ≠ 0 := ne_of_gt hbinm
        have hstep : walkSteps binm (t + binm) endT = walkSteps binm t endT - 1 := by
          unfold walkSteps
          have hdiv : (endT - (t + binm)) / binm = (endT - t) / binm - 1 := by
            field_simp
            ring
          rw [hdiv, Int.ceil_sub_one]
          omega
        simp only [baselineWalk, if_pos hcond]
        split
        · exact ih f2 (t + binm) _ _ (by omega) (by omega)
        · exact ih f2 (t + binm) _ _ (by omega) (by omega)
      · simp only [baselineWalk, if_neg hcond]

/-- C8: with a positive bin width, both per-session loops reach their exit
condition within the fuel given by their own structure — the baseline walk
within ceil((latest_end − t)/bin_width) steps (each iteration advances the
walk time by one bin width toward latest_end), and the greedy allocation loop
within the number of candidate bins (each iteration removes the chosen bin
from the candidate set): any extra fuel leaves the result unchanged. -/
theorem C8_loops_terminate (idx : List ℚ) (binm binh endT kw cap : ℚ)
    (maxCC : ℕ) (s : Session) (hbin : 0 < binm) :
    (∀ (f : ℕ) (t needed : ℚ) (load : ℚ → ℚ), walkSteps binm t endT ≤ f →
      baselineWalk idx binm binh endT kw f t needed load =
        baselineWalk idx binm binh endT kw (walkSteps binm t endT) t needed load) ∧
    (∀ (f : ℕ) (bins : List ℚ) (needed : ℚ) (st : GState), bins.length ≤ f →
      allocSession binh cap maxCC s f bins needed st =
        allocSession binh cap maxCC s bins.length bins needed st) :=
  ⟨fun f t needed load hf =>
    baselineWalk_fuel_stable hbin f (walkSteps binm t endT) t needed load hf le_rfl,
   fun f bins needed st hf =>
    allocSession_fuel_stable f bins.length bins needed st hf le_rfl⟩

/-- Witness for C8: surplus fuel does not change a concrete baseline walk. -/
theorem C8_loops_terminate_witness :
    baselineWalk [0] 15 (1 / 4) 30 1 3 0 5 (fun _ => 0) =
      baselineWalk [0] 15 (1 / 4) 30 1 (walkSteps 15 0 30) 0 5 (fun _ => 0) :=
  (C8_loops_terminate [0] 15 (1 / 4) 30 1 0 0 ⟨0, 0, 0, 0, 0, 0⟩
    (by norm_num)).1 3 0 5 (fun _ => 0) (by rw [walkSteps_0_30]; omega)
